import Mathlib

/-!
Verification of the image2arm asset encoder (src/main.rs).

The development shallowly embeds the program: pixels are 4-tuples of
8-bit channel values (modelled as Nat, equality is exact 4-channel
equality), images are named pixel lists, and the palette is the
deduplicated list of all colours.  Machine u8 arithmetic in the bit
packer is modelled with explicit mod 256; fallible steps (the Rust
panics by expect and by division by zero) are modelled with Option and
Except.  Iteration order of the Rust HashSet used for palette
construction is unspecified; it is modelled by List.dedup, which agrees
with the source in the two facts every theorem below relies on: the
palette lists exactly the distinct colours, each exactly once.
-/

/-- Pixel models rgb::RGBA of u8 (main.rs line 10): four 8-bit channels,
compared by exact channel equality. -/
structure Pixel where
  r : Nat
  g : Nat
  b : Nat
  a : Nat
deriving DecidableEq, Repr

instance : Inhabited Pixel := ⟨⟨0, 0, 0, 0⟩⟩

/-- Image (main.rs lines 153-157): an asset name and its ordered pixels. -/
structure Image where
  name : String
  pixels : List Pixel
deriving DecidableEq, Repr

/-- Palette (main.rs lines 210-213): the list of distinct colours. -/
structure Palette where
  colours : List Pixel
deriving DecidableEq, Repr

/-- posOf models Iterator::position: the first index of the list whose
element equals the argument, none when absent (main.rs line 249). -/
def posOf (l : List Pixel) (px : Pixel) : Option Nat :=
  match l with
  | [] => none
  | c :: cs => if c = px then some 0 else (posOf cs px).map (· + 1)

/-- Palette::index (main.rs lines 248-250). -/
def Palette.index (p : Palette) (colour : Pixel) : Option Nat :=
  posOf p.colours colour

/-- Palette::len (main.rs lines 252-255). -/
def Palette.len (p : Palette) : Nat :=
  p.colours.length

/-- Palette::new_from_images (main.rs lines 216-226): collect every
pixel of every image and keep each distinct colour once.  The HashSet
iteration order is unspecified in the source; List.dedup stands in for
it (same elements, no duplicates). -/
def Palette.new_from_images (images : List Image) : Palette :=
  ⟨(images.flatMap Image.pixels).dedup⟩

/-- bits_per_colour models main.rs line 112,
`(palette.len() as f64).log2().ceil() as usize`.  For every palette
size reachable from RGBA pixels the f64 computation is exact, so it
equals the ceiling base-2 logarithm, which is Nat.clog 2.  Note the
source applies no minimum: a palette of size 1 yields 0. -/
def bits_per_colour (paletteLen : Nat) : Nat :=
  Nat.clog 2 paletteLen

/-- pixels_per_byte models main.rs line 113, `8 / bits_per_colour`
(usize division, i.e. floor division; the source panics when
bits_per_colour is 0). -/
def pixels_per_byte (bits : Nat) : Nat :=
  8 / bits

/-- chunksOf models slice::chunks(n) (main.rs line 185): consecutive
groups of n elements, the last group possibly shorter.  The n = 0 case
is unreachable in the source (chunks(0) panics). -/
def chunksOf {α : Type} (n : Nat) (l : List α) : List (List α) :=
  match n, l with
  | _, [] => []
  | 0, _ :: _ => []
  | n+1, x :: xs => (x :: xs).take (n+1) :: chunksOf (n+1) (xs.drop n)
termination_by l.length
decreasing_by simp [List.length_drop]; omega

/-- chunksExact models slice::chunks_exact(n) (main.rs line 198): only
the full groups of n elements; a final shorter remainder is dropped. -/
def chunksExact {α : Type} (n : Nat) (l : List α) : List (List α) :=
  match n, l with
  | _, [] => []
  | 0, _ :: _ => []
  | n+1, x :: xs =>
    if xs.length + 1 < n + 1 then []
    else (x :: xs).take (n+1) :: chunksExact (n+1) (xs.drop n)
termination_by l.length
decreasing_by simp [List.length_drop]; omega

/-- packByteAux models the fold of main.rs lines 187-193 on the already
reversed chunk: `(acc << bits) | (palette.index(pixel).expect(..) as u8)`
on u8, i.e. mod 256.  A missing palette index (the expect panic) is
none. -/
def packByteAux (p : Palette) (bits : Nat) (acc : Nat) : List Pixel → Option Nat
  | [] => some acc
  | px :: rest =>
    match p.index px with
    | none => none
    | some i => packByteAux p bits (((acc * 2 ^ bits) % 256) ||| (i % 256)) rest

/-- packByte models one step of the map at main.rs lines 186-194:
`chunk.iter().rev().fold(0_u8, ..)`. -/
def packByte (p : Palette) (bits : Nat) (chunk : List Pixel) : Option Nat :=
  packByteAux p bits 0 chunk.reverse

/-- packChunks models collecting the per-chunk bytes (main.rs lines
183-195); the first expect panic aborts the whole pack. -/
def packChunks (p : Palette) (bits : Nat) : List (List Pixel) → Option (List Nat)
  | [] => some []
  | c :: cs =>
    match packByte p bits c with
    | none => none
    | some b => (packChunks p bits cs).map (b :: ·)

/-- Image.packed is the packed byte sequence of Image::to_asm
(main.rs lines 183-195): chunk the pixels into groups of
pixels_per_byte and pack each group into one byte. -/
def Image.packed (img : Image) (p : Palette) (ppb bits : Nat) : Option (List Nat) :=
  packChunks p bits (chunksOf ppb img.pixels)

/-- Image.renderedBytes is the sequence of bytes that actually appears
in the DEFB rows of the image block (main.rs lines 198-204): the packed
bytes are grouped by chunks_exact(5), so only full rows of 5 are
written. -/
def Image.renderedBytes (img : Image) (p : Palette) (ppb bits : Nat) : Option (List Nat) :=
  (Image.packed img p ppb bits).map (fun packed => (chunksExact 5 packed).flatten)

/-- chunkVal is the value a packed group denotes: index j of the group
contributes shifted left by j * bits, so the first element sits in the
least significant bits. -/
def chunkVal (bits : Nat) : List Nat → Nat
  | [] => 0
  | i :: is => i + 2 ^ bits * chunkVal bits is

/-- indicesOf resolves every pixel of a chunk in the palette, none as
soon as one lookup fails. -/
def indicesOf (p : Palette) : List Pixel → Option (List Nat)
  | [] => some []
  | px :: rest =>
    match p.index px with
    | none => none
    | some i => (indicesOf p rest).map (i :: ·)

/-- byteFields is the unpacking rule stated by the round-trip property:
extract ppb successive bits-wide fields from a byte, least significant
first. -/
def byteFields (bits ppb byte : Nat) : List Nat :=
  (List.range ppb).map (fun j => byte / 2 ^ (j * bits) % 2 ^ bits)

/-- lookupAll maps palette indices back to colours, none on an
out-of-range index. -/
def lookupAll (p : Palette) : List Nat → Option (List Pixel)
  | [] => some []
  | i :: is =>
    match p.colours.get? i with
    | none => none
    | some c => (lookupAll p is).map (c :: ·)

/-- unpack is the inverse operation described by the round-trip
property: split every byte into ppb fields of bits bits (least
significant first), keep the first count fields, and map each field
back through the palette. -/
def unpack (p : Palette) (bits ppb count : Nat) (bytes : List Nat) : Option (List Pixel) :=
  lookupAll p ((bytes.flatMap (byteFields bits ppb)).take count)

/-- paletteRendered models Palette::to_asm (main.rs lines 228-246): the
k-th DEFB line of the palette block lists the four channel bytes of the
k-th palette colour, in palette order. -/
def paletteRendered (p : Palette) : List (Nat × Nat × Nat × Nat) :=
  p.colours.map (fun c => (c.r, c.g, c.b, c.a))

/-- TableLine is one line of the asset address table block: an entry
`_ADR<label> DEFW <label>` or the terminating end marker label
`AssetAddressTableEnd` (main.rs lines 132-136). -/
inductive TableLine where
  | entry (adrLabel targetLabel : String)
  | endMarker
deriving DecidableEq, Repr

/-- addressTable models main.rs lines 132-136: one entry per image
label, then the end marker. -/
def addressTable (labels : List String) : List TableLine :=
  labels.map (fun l => TableLine.entry ("_ADR" ++ l) l) ++ [TableLine.endMarker]

/-- assetMaxConst models the ASSET_MAX constant of main.rs line 139,
`(AssetAddressTableEnd - AssetAddressTable) / 4`, as the assembler
evaluates it: every DEFW entry occupies one 4-byte ARM word, so the
label difference is 4 times the entry count. -/
def assetMaxConst (labels : List String) : Nat :=
  (4 * labels.length) / 4

/-- Image.toBlock is the image part of Image::to_asm (main.rs lines
169-207): the label `_<name>` and the bytes of the emitted DEFB rows. -/
def Image.toBlock (img : Image) (p : Palette) (ppb bits : Nat) : Option (String × List Nat) :=
  (Image.packed img p ppb bits).map
    (fun packed => ("_" ++ img.name, (chunksExact 5 packed).flatten))

/-- buildBlocks models the loop of main.rs lines 118-124: render every
image in order; the first failure aborts the run. -/
def buildBlocks (p : Palette) (ppb bits : Nat) : List Image → Option (List (String × List Nat))
  | [] => some []
  | img :: rest =>
    match Image.toBlock img p ppb bits with
    | none => none
    | some blk => (buildBlocks p ppb bits rest).map (blk :: ·)

/-- OutputFile is the structural content of assets.s, in emission
order: palette block, the two scalar EQU declarations, one block per
image, the asset address table with its end marker, and the ASSET_MAX
constant (main.rs lines 104-148). -/
structure OutputFile where
  paletteRows : List (Nat × Nat × Nat × Nat)
  bitsPerColour : Nat
  pixelsPerByte : Nat
  imageBlocks : List (String × List Nat)
  table : List TableLine
  assetMax : Nat
deriving DecidableEq, Repr

/-- mainRun models main (main.rs lines 24-151) from the point where the
images have been decoded.  The empty-input check (line 88) precedes the
creation of the output file (line 100), so zero images yield the error
with no output value at all.  The two panics reachable later (the
division 8 / 0 at line 113 when the palette has at most one colour, and
the expect at line 191 on an unresolvable colour) are modelled as
errors. -/
def mainRun (images : List Image) : Except String OutputFile :=
  if images.isEmpty then Except.error "No Images to process."
  else
    let palette := Palette.new_from_images images
    let bits := bits_per_colour palette.len
    if bits = 0 then Except.error "attempt to divide by zero"
    else
      let ppb := pixels_per_byte bits
      match buildBlocks palette ppb bits images with
      | none => Except.error "Palette does not contain this pixel."
      | some blocks =>
          Except.ok
            { paletteRows := paletteRendered palette
              bitsPerColour := bits
              pixelsPerByte := ppb
              imageBlocks := blocks
              table := addressTable (blocks.map Prod.fst)
              assetMax := assetMaxConst (blocks.map Prod.fst) }

/-- px0, px1, px2 are three distinct concrete colours used by the
concrete witnesses. -/
def px0 : Pixel := ⟨0, 0, 0, 0⟩

/-- px1 is a second concrete colour. -/
def px1 : Pixel := ⟨10, 20, 30, 255⟩

/-- px2 is a third concrete colour. -/
def px2 : Pixel := ⟨7, 8, 9, 255⟩

/-! ### Basic lemmas about the embedded operations -/

/-- chunksOf on the empty list is empty. -/
theorem chunksOf_nil {α : Type} (n : Nat) : chunksOf n ([] : List α) = [] := by
  cases n <;> simp [chunksOf]

/-- Unfolding equation of chunksOf for a positive chunk size and a
non-empty list. -/
theorem chunksOf_cons {α : Type} (n : Nat) (x : α) (xs : List α) :
    chunksOf (n+1) (x :: xs) =
      (x :: xs).take (n+1) :: chunksOf (n+1) ((x :: xs).drop (n+1)) := by
  rw [chunksOf, List.drop_succ_cons]

/-- Concatenating the chunks gives back the original list. -/
theorem chunksOf_flatten_aux {α : Type} (m : Nat) :
    ∀ (N : Nat) (l : List α), l.length ≤ N → (chunksOf (m+1) l).flatten = l := by
  intro N
  induction N with
  | zero =>
    intro l hl
    have h : l = [] := List.eq_nil_of_length_eq_zero (by omega)
    subst h
    simp [chunksOf_nil]
  | succ N ih =>
    intro l hl
    cases l with
    | nil => simp [chunksOf_nil]
    | cons x xs =>
      rw [chunksOf_cons, List.flatten_cons]
      rw [ih ((x :: xs).drop (m+1)) (by simp [List.length_drop] at hl ⊢; omega)]
      exact List.take_append_drop _ _

/-- Concatenating the chunks gives back the original list. -/
theorem chunksOf_flatten {α : Type} (n : Nat) (hn : 0 < n) (l : List α) :
    (chunksOf n l).flatten = l := by
  obtain ⟨m, rfl⟩ : ∃ m, n = m + 1 := ⟨n - 1, by omega⟩
  exact chunksOf_flatten_aux m l.length l le_rfl

/-- Every chunk is non-empty and no longer than the chunk size. -/
theorem chunksOf_mem_length_aux {α : Type} (m : Nat) :
    ∀ (N : Nat) (l : List α), l.length ≤ N →
      ∀ c ∈ chunksOf (m+1) l, 0 < c.length ∧ c.length ≤ m+1 := by
  intro N
  induction N with
  | zero =>
    intro l hl c hc
    have h : l = [] := List.eq_nil_of_length_eq_zero (by omega)
    subst h
    simp [chunksOf_nil] at hc
  | succ N ih =>
    intro l hl c hc
    cases l with
    | nil => simp [chunksOf_nil] at hc
    | cons x xs =>
      rw [chunksOf_cons] at hc
      cases hc with
      | head => simp [List.length_take]; try omega
      | tail _ h =>
        exact ih ((x :: xs).drop (m+1)) (by simp [List.length_drop] at hl ⊢; omega) c h

/-- Every chunk is non-empty and no longer than the chunk size. -/
theorem chunksOf_mem_length {α : Type} (n : Nat) (hn : 0 < n) (l : List α) :
    ∀ c ∈ chunksOf n l, 0 < c.length ∧ c.length ≤ n := by
  obtain ⟨m, rfl⟩ : ∃ m, n = m + 1 := ⟨n - 1, by omega⟩
  exact chunksOf_mem_length_aux m l.length l le_rfl

/-- posOf finds a member: it returns an in-range index holding the
colour. -/
theorem posOf_spec :
    ∀ (l : List Pixel) (px : Pixel), px ∈ l →
      ∃ i, posOf l px = some i ∧ i < l.length ∧ l.get? i = some px := by
  intro l
  induction l with
  | nil => intro px h; cases h
  | cons c cs ih =>
    intro px h
    by_cases hc : c = px
    · exact ⟨0, by simp [posOf, hc], by simp, by simp [hc]⟩
    · have hpx : px ∈ cs := by
        cases List.mem_cons.mp h with
        | inl heq => exact absurd heq.symm hc
        | inr htail => exact htail
      obtain ⟨i, h1, h2, h3⟩ := ih px hpx
      refine ⟨i + 1, by simp [posOf, hc, h1], by simp; omega, by simpa using h3⟩

/-- On a duplicate-free list, posOf inverts positional lookup. -/
theorem posOf_of_nodup :
    ∀ (l : List Pixel), l.Nodup → ∀ (k : Nat) (c : Pixel),
      l.get? k = some c → posOf l c = some k := by
  intro l
  induction l with
  | nil => intro _ k c h; simp at h
  | cons x xs ih =>
    intro hnd k c hk
    cases k with
    | zero =>
      simp at hk
      subst hk
      simp [posOf]
    | succ k =>
      have hk' : xs.get? k = some c := by simpa using hk
      have hcmem : c ∈ xs := List.get?_mem hk'
      have hx : ¬ (x = c) := by
        rintro rfl
        exact (List.nodup_cons.mp hnd).1 hcmem
      simp [posOf, hx, ih (List.nodup_cons.mp hnd).2 k c hk']

/-- indicesOf succeeds on a chunk whose pixels all occur in the
palette, and the indices it returns are in range, look back up to the
original pixels, and are the defaulted index map of the chunk. -/
theorem indicesOf_sound (p : Palette) :
    ∀ (chunk : List Pixel), (∀ px ∈ chunk, px ∈ p.colours) →
      ∃ is, indicesOf p chunk = some is ∧ is.length = chunk.length ∧
        (∀ i ∈ is, i < p.colours.length) ∧ lookupAll p is = some chunk ∧
        is = chunk.map (fun px => (p.index px).getD 0) := by
  intro chunk
  induction chunk with
  | nil => intro _; exact ⟨[], by simp [indicesOf], by simp, by simp, by simp [lookupAll], by simp⟩
  | cons px rest ih =>
    intro hmem
    obtain ⟨i, h1, h2, h3⟩ := posOf_spec p.colours px (hmem px (by simp))
    have hidx : p.index px = some i := h1
    obtain ⟨is', e1, e2, e3, e4, e5⟩ := ih (fun q hq => hmem q (by simp [hq]))
    refine ⟨i :: is', ?_, ?_, ?_, ?_, ?_⟩
    · simp [indicesOf, hidx, e1]
    · simp [e2]
    · intro j hj
      cases List.mem_cons.mp hj with
      | inl h => subst h; exact h2
      | inr h => exact e3 j h
    · simp [lookupAll, e4, show p.colours[i]? = some px from by simpa using h3]
    · simp [hidx, e5]

set_option maxRecDepth 4000 in
/-- Bitwise or of a multiple of 2 to the b and a remainder below 2 to
the b is their sum, in the byte-sized range the packer works in. -/
theorem lor_small :
    ∀ b < 9, ∀ i < 2 ^ b, ∀ A < 2 ^ (8 - b), (A * 2 ^ b) ||| i = A * 2 ^ b + i := by
  decide

/-- chunkVal is bounded by 2 to the total bit count of the group. -/
theorem chunkVal_lt (bits : Nat) :
    ∀ is : List Nat, (∀ i ∈ is, i < 2 ^ bits) →
      chunkVal bits is < 2 ^ (bits * is.length) := by
  intro is
  induction is with
  | nil => intro _; simp [chunkVal]
  | cons i is ih =>
    intro h
    have hi : i < 2 ^ bits := h i (by simp)
    have hV : chunkVal bits is < 2 ^ (bits * is.length) := ih (fun j hj => h j (by simp [hj]))
    have hlen : bits * (i :: is).length = bits * is.length + bits := by
      simp [List.length_cons]; ring
    rw [hlen, pow_add]
    have step1 : chunkVal bits (i :: is) < 2 ^ bits * (chunkVal bits is + 1) := by
      have : 2 ^ bits * (chunkVal bits is + 1) = 2 ^ bits * chunkVal bits is + 2 ^ bits := by ring
      rw [this]
      simp only [chunkVal]
      omega
    have step2 : 2 ^ bits * (chunkVal bits is + 1) ≤ 2 ^ bits * 2 ^ (bits * is.length) := by
      exact Nat.mul_le_mul_left _ (by omega)
    calc chunkVal bits (i :: is) < 2 ^ bits * (chunkVal bits is + 1) := step1
      _ ≤ 2 ^ bits * 2 ^ (bits * is.length) := step2
      _ = 2 ^ (bits * is.length) * 2 ^ bits := by ring

/-- chunkVal is the sum of the indices shifted by their position times
the bit width, i.e. the byte formula of the packing rule. -/
theorem chunkVal_eq_sum (bits : Nat) :
    ∀ is : List Nat,
      chunkVal bits is = ∑ j in Finset.range is.length, is.getD j 0 * 2 ^ (j * bits) := by
  intro is
  induction is with
  | nil => simp [chunkVal]
  | cons i is ih =>
    rw [show chunkVal bits (i :: is) = i + 2 ^ bits * chunkVal bits is from rfl]
    rw [List.length_cons, Finset.sum_range_succ']
    have hz : (i :: is).getD 0 0 * 2 ^ (0 * bits) = i := by simp
    rw [hz, ih, Finset.mul_sum]
    have hcongr :
        ∀ j ∈ Finset.range is.length,
          2 ^ bits * (is.getD j 0 * 2 ^ (j * bits)) =
            (i :: is).getD (j + 1) 0 * 2 ^ ((j + 1) * bits) := by
      intro j _
      have h1 : (i :: is).getD (j + 1) 0 = is.getD j 0 := rfl
      have h2 : (j + 1) * bits = j * bits + bits := by ring
      rw [h1, h2, pow_add]
      ring
    rw [Finset.sum_congr rfl hcongr]
    omega

/-- packByteAux processes an appended list in two stages. -/
theorem packByteAux_append (p : Palette) (bits : Nat) :
    ∀ (l₁ l₂ : List Pixel) (acc : Nat),
      packByteAux p bits acc (l₁ ++ l₂) =
        (packByteAux p bits acc l₁).bind (fun a => packByteAux p bits a l₂) := by
  intro l₁
  induction l₁ with
  | nil => intro l₂ acc; simp [packByteAux]
  | cons px rest ih =>
    intro l₂ acc
    simp only [List.cons_append, packByteAux]
    cases p.index px with
    | none => rfl
    | some i => exact ih l₂ _

/-- packByteAux fails whenever the processed list holds a pixel the
palette cannot resolve. -/
theorem packByteAux_none (p : Palette) (bits : Nat) :
    ∀ (l : List Pixel) (acc : Nat) (px : Pixel),
      px ∈ l → p.index px = none → packByteAux p bits acc l = none := by
  intro l
  induction l with
  | nil => intro _ px h; intro _; cases h
  | cons c cs ih =>
    intro acc px hmem hnone
    simp only [packByteAux]
    cases hidx : p.index c with
    | none => rfl
    | some i =>
      have hpx : px ∈ cs := by
        cases List.mem_cons.mp hmem with
        | inl h => subst h; rw [hidx] at hnone; cases hnone
        | inr h => exact h
      exact ih _ px hpx hnone

/-- packChunks fails whenever one of its chunks fails to pack. -/
theorem packChunks_none (p : Palette) (bits : Nat) :
    ∀ (chunks : List (List Pixel)) (c : List Pixel),
      c ∈ chunks → packByte p bits c = none → packChunks p bits chunks = none := by
  intro chunks
  induction chunks with
  | nil => intro c h; cases h
  | cons d ds ih =>
    intro c hmem hnone
    simp only [packChunks]
    cases List.mem_cons.mp hmem with
    | inl h =>
      subst h
      rw [hnone]
    | inr h =>
      cases hd : packByte p bits d with
      | none => rfl
      | some b => rw [ih c h hnone]; rfl

/-- indicesOf preserves length when it succeeds. -/
theorem indicesOf_length (p : Palette) :
    ∀ (l : List Pixel) (is : List Nat), indicesOf p l = some is → is.length = l.length := by
  intro l
  induction l with
  | nil => intro is h; simp [indicesOf] at h; subst h; rfl
  | cons px rest ih =>
    intro is h
    simp only [indicesOf] at h
    cases hidx : p.index px with
    | none => rw [hidx] at h; cases h
    | some i =>
      rw [hidx] at h
      cases hrest : indicesOf p rest with
      | none => rw [hrest] at h; cases h
      | some is' =>
        rw [hrest] at h
        simp only [Option.map_some'] at h
        have : is = i :: is' := (Option.some.inj h).symm
        subst this
        simp [ih is' hrest]

/-- packByte computes chunkVal of the palette indices of the chunk, as
long as the whole group fits into one byte. -/
theorem packByte_eval (p : Palette) (bits : Nat) :
    ∀ (chunk : List Pixel) (is : List Nat),
      indicesOf p chunk = some is →
      (∀ i ∈ is, i < 2 ^ bits) →
      bits * chunk.length ≤ 8 →
      packByte p bits chunk = some (chunkVal bits is) := by
  intro chunk
  induction chunk with
  | nil =>
    intro is h _ _
    simp [indicesOf] at h
    subst h
    simp [packByte, packByteAux, chunkVal]
  | cons px rest ih =>
    intro is h hbound hfit
    simp only [indicesOf] at h
    cases hidx : p.index px with
    | none => rw [hidx] at h; cases h
    | some i =>
      rw [hidx] at h
      cases hrest : indicesOf p rest with
      | none => rw [hrest] at h; cases h
      | some is' =>
        rw [hrest] at h
        simp only [Option.map_some'] at h  -- h : some (i :: is') = some is
        have his : is = i :: is' := (Option.some.inj h).symm
        subst his
        have hfit' : bits * rest.length ≤ 8 := by
          have : bits * rest.length ≤ bits * (rest.length + 1) := Nat.mul_le_mul_left _ (by omega)
          simp only [List.length_cons] at hfit
          omega
        have hbound' : ∀ j ∈ is', j < 2 ^ bits := fun j hj => hbound j (by simp [hj])
        have hi : i < 2 ^ bits := hbound i (by simp)
        have hIH : packByteAux p bits 0 rest.reverse = some (chunkVal bits is') := by
          have := ih is' hrest hbound' hfit'
          rw [packByte] at this
          exact this
        rw [packByte, List.reverse_cons, packByteAux_append, hIH]
        show packByteAux p bits (chunkVal bits is') [px] = some (chunkVal bits (i :: is'))
        simp only [packByteAux, hidx]
        -- bounds on the accumulated value
        have hb8 : bits ≤ 8 := by
          have h1 : bits * 1 ≤ bits * (rest.length + 1) := Nat.mul_le_mul_left bits (by omega)
          simp only [List.length_cons] at hfit
          simp only [Nat.mul_one] at h1
          omega
        have hislen : is'.length = rest.length := indicesOf_length p rest is' hrest
        have hV : chunkVal bits is' < 2 ^ (bits * rest.length) := by
          rw [← hislen]
          exact chunkVal_lt bits is' hbound'
        have hsum : bits * rest.length + bits ≤ 8 := by
          simp only [List.length_cons] at hfit
          have : bits * (rest.length + 1) = bits * rest.length + bits := by ring
          omega
        have hmul : chunkVal bits is' * 2 ^ bits < 256 := by
          calc chunkVal bits is' * 2 ^ bits
              < 2 ^ (bits * rest.length) * 2 ^ bits :=
                (Nat.mul_lt_mul_right (Nat.pos_pow_of_pos bits (by norm_num))).mpr hV
            _ = 2 ^ (bits * rest.length + bits) := (pow_add 2 _ _).symm
            _ ≤ 2 ^ 8 := Nat.pow_le_pow_right (by norm_num) hsum
            _ = 256 := by norm_num
        have hi256 : i < 256 := by
          calc i < 2 ^ bits := hi
            _ ≤ 2 ^ 8 := Nat.pow_le_pow_right (by norm_num) hb8
            _ = 256 := by norm_num
        have hA : chunkVal bits is' < 2 ^ (8 - bits) := by
          exact lt_of_lt_of_le hV (Nat.pow_le_pow_right (by norm_num) (by omega))
        rw [Nat.mod_eq_of_lt hmul, Nat.mod_eq_of_lt hi256]
        rw [lor_small bits (by omega) i hi (chunkVal bits is') hA]
        exact congrArg some (by
          rw [show chunkVal bits (i :: is') = i + 2 ^ bits * chunkVal bits is' from rfl]
          ring)

/-- Field extraction inverts chunkVal: the j-th bits-wide field of the
group value is the j-th index (and 0 past the end of the group). -/
theorem extract_chunkVal (bits : Nat) :
    ∀ (is : List Nat) (j : Nat), (∀ i ∈ is, i < 2 ^ bits) →
      chunkVal bits is / 2 ^ (j * bits) % 2 ^ bits = is.getD j 0 := by
  intro is
  induction is with
  | nil => intro j _; simp [chunkVal]
  | cons i is ih =>
    intro j h
    have hi : i < 2 ^ bits := h i (by simp)
    cases j with
    | zero =>
      rw [show chunkVal bits (i :: is) = i + 2 ^ bits * chunkVal bits is from rfl]
      simp only [Nat.zero_mul, pow_zero, Nat.div_one]
      rw [Nat.add_mul_mod_self_left]
      simp [Nat.mod_eq_of_lt hi]
    | succ j =>
      have hexp : (j + 1) * bits = bits + j * bits := by ring
      rw [hexp, pow_add, ← Nat.div_div_eq_div_mul]
      rw [show chunkVal bits (i :: is) = i + 2 ^ bits * chunkVal bits is from rfl]
      rw [Nat.add_mul_div_left _ _ (Nat.pos_pow_of_pos bits (by norm_num))]
      rw [Nat.div_eq_of_lt hi]
      rw [Nat.zero_add]
      exact ih j (fun x hx => h x (by simp [hx]))

/-- The extracted fields of a packed group are the defaulted positional
indices of the group. -/
theorem byteFields_chunkVal (bits ppb : Nat) (is : List Nat)
    (h : ∀ i ∈ is, i < 2 ^ bits) :
    byteFields bits ppb (chunkVal bits is) = (List.range ppb).map (fun j => is.getD j 0) := by
  rw [byteFields]
  exact List.map_congr_left (fun j _ => extract_chunkVal bits is j h)

/-- Reading a list back out of its defaulted positional lookups. -/
theorem map_getD_range :
    ∀ (l : List Nat), (List.range l.length).map (fun j => l.getD j 0) = l := by
  intro l
  induction l with
  | nil => simp
  | cons x xs ih =>
    rw [List.length_cons, List.range_succ_eq_map]
    rw [List.map_cons, List.map_map]
    have hcomp :
        (List.range xs.length).map ((fun j => (x :: xs).getD j 0) ∘ Nat.succ) =
          (List.range xs.length).map (fun j => xs.getD j 0) :=
      List.map_congr_left (fun j _ => rfl)
    rw [hcomp, ih]
    rfl

/-- lookupAll distributes over list append. -/
theorem lookupAll_append (p : Palette) :
    ∀ (a b : List Nat) (ca cb : List Pixel),
      lookupAll p a = some ca → lookupAll p b = some cb →
      lookupAll p (a ++ b) = some (ca ++ cb) := by
  intro a
  induction a with
  | nil =>
    intro b ca cb ha hb
    simp only [lookupAll] at ha
    have : ca = [] := (Option.some.inj ha).symm
    subst this
    simpa using hb
  | cons i is ih =>
    intro b ca cb ha hb
    simp only [lookupAll] at ha
    cases hg : p.colours.get? i with
    | none => rw [hg] at ha; cases ha
    | some c =>
      rw [hg] at ha
      cases hrest : lookupAll p is with
      | none => rw [hrest] at ha; cases ha
      | some cs =>
        rw [hrest] at ha
        simp only [Option.map_some'] at ha
        have hca : ca = c :: cs := (Option.some.inj ha).symm
        subst hca
        rw [List.cons_append]
        simp only [lookupAll, hg, ih b cs cb hrest hb]
        rfl

/-- Evaluation of the ceiling logarithm between adjacent powers. -/
theorem clog2_eq (n k : Nat) (hlo : 2 ^ k < n) (hhi : n ≤ 2 ^ (k + 1)) :
    Nat.clog 2 n = k + 1 := by
  have h1 : Nat.clog 2 n ≤ k + 1 := (Nat.le_pow_iff_clog_le (by norm_num)).mp hhi
  have h2 : k < Nat.clog 2 n := (Nat.pow_lt_iff_lt_clog (by norm_num)).mp hlo
  omega

/-- The derived bit width of a one-colour palette is 0. -/
theorem bpc_one : bits_per_colour 1 = 0 :=
  Nat.clog_of_right_le_one le_rfl 2

/-- The derived bit width of a two-colour palette is 1. -/
theorem bpc_two : bits_per_colour 2 = 1 :=
  clog2_eq 2 0 (by norm_num) (by norm_num)

/-- The derived bit width of a three-colour palette is 2. -/
theorem bpc_three : bits_per_colour 3 = 2 :=
  clog2_eq 3 1 (by norm_num) (by norm_num)

/-- packChunks succeeds on chunks of resolvable pixels and returns the
chunkVal of the index map of each chunk. -/
theorem packChunks_eval (p : Palette) (bits : Nat) (hcap : p.colours.length ≤ 2 ^ bits) :
    ∀ (chunks : List (List Pixel)),
      (∀ c ∈ chunks, (∀ px ∈ c, px ∈ p.colours) ∧ bits * c.length ≤ 8) →
      packChunks p bits chunks =
        some (chunks.map (fun c => chunkVal bits (c.map (fun px => (p.index px).getD 0)))) := by
  intro chunks
  induction chunks with
  | nil => intro _; simp [packChunks]
  | cons c cs ih =>
    intro h
    obtain ⟨hmem, hfit⟩ := h c (by simp)
    obtain ⟨is, e1, e2, e3, e4, e5⟩ := indicesOf_sound p c hmem
    have hbound : ∀ i ∈ is, i < 2 ^ bits := fun i hi => lt_of_lt_of_le (e3 i hi) hcap
    have hB : packByte p bits c = some (chunkVal bits is) := packByte_eval p bits c is e1 hbound hfit
    simp only [packChunks, hB, List.map_cons]
    rw [ih (fun d hd => h d (by simp [hd]))]
    rw [← e5]
    rfl

/-- Core round-trip: unpacking the packed chunks of a pixel sequence,
taking exactly as many fields as there are pixels, restores the
sequence, provided every group fits in a byte and every pixel resolves
in the palette. -/
theorem roundtrip_core (p : Palette) (bits m : Nat)
    (hfit : bits * (m + 1) ≤ 8) (hcap : p.colours.length ≤ 2 ^ bits) :
    ∀ (N : Nat) (pixels : List Pixel), pixels.length ≤ N →
      (∀ px ∈ pixels, px ∈ p.colours) →
      ∀ bytes, packChunks p bits (chunksOf (m+1) pixels) = some bytes →
      lookupAll p ((bytes.flatMap (byteFields bits (m+1))).take pixels.length) = some pixels := by
  intro N
  induction N with
  | zero =>
    intro pixels hlen _ bytes hpack
    have hnil : pixels = [] := List.eq_nil_of_length_eq_zero (by omega)
    subst hnil
    rw [chunksOf_nil] at hpack
    simp only [packChunks] at hpack
    have hbytes : bytes = [] := (Option.some.inj hpack).symm
    subst hbytes
    simp [lookupAll]
  | succ N ih =>
    intro pixels hlen hmem bytes hpack
    cases pixels with
    | nil =>
      rw [chunksOf_nil] at hpack
      simp only [packChunks] at hpack
      have hbytes : bytes = [] := (Option.some.inj hpack).symm
      subst hbytes
      simp [lookupAll]
    | cons x xs =>
      rw [chunksOf_cons] at hpack
      simp only [packChunks] at hpack
      cases hB : packByte p bits ((x :: xs).take (m+1)) with
      | none => rw [hB] at hpack; cases hpack
      | some B =>
        rw [hB] at hpack
        cases hrest : packChunks p bits (chunksOf (m+1) ((x :: xs).drop (m+1))) with
        | none => rw [hrest] at hpack; cases hpack
        | some bytes' =>
          rw [hrest] at hpack
          simp only [Option.map_some'] at hpack
          have hbytes : bytes = B :: bytes' := (Option.some.inj hpack).symm
          subst hbytes
          have hmemc : ∀ px ∈ (x :: xs).take (m+1), px ∈ p.colours :=
            fun px hpx => hmem px (List.mem_of_mem_take hpx)
          obtain ⟨is, e1, e2, e3, e4, e5⟩ := indicesOf_sound p ((x :: xs).take (m+1)) hmemc
          have hbound : ∀ i ∈ is, i < 2 ^ bits := fun i hi => lt_of_lt_of_le (e3 i hi) hcap
          have hclen : ((x :: xs).take (m+1)).length ≤ m + 1 := by
            rw [List.length_take]; omega
          have hfitc : bits * ((x :: xs).take (m+1)).length ≤ 8 :=
            le_trans (Nat.mul_le_mul_left _ hclen) hfit
          have hBval : B = chunkVal bits is := by
            have h2 := packByte_eval p bits _ is e1 hbound hfitc
            rw [hB] at h2
            exact Option.some.inj h2
          subst hBval
          rw [List.flatMap_cons, byteFields_chunkVal bits (m+1) is hbound]
          by_cases hcase : m + 1 ≤ (x :: xs).length
          · -- the first chunk is full
            have hclen2 : ((x :: xs).take (m+1)).length = m + 1 := by
              rw [List.length_take]; omega
            have hislen : is.length = m + 1 := e2.trans hclen2
            have hfields : (List.range (m+1)).map (fun j => is.getD j 0) = is := by
              rw [← hislen]; exact map_getD_range is
            rw [hfields, List.take_append_eq_append_take]
            have htake1 : is.take (x :: xs).length = is := List.take_of_length_le (by omega)
            rw [htake1]
            have hdroplen : ((x :: xs).drop (m+1)).length ≤ N := by
              rw [List.length_drop]
              simp only [List.length_cons] at hlen ⊢
              omega
            have hmemd : ∀ px ∈ (x :: xs).drop (m+1), px ∈ p.colours :=
              fun px hpx => hmem px (List.mem_of_mem_drop hpx)
            have hIH := ih ((x :: xs).drop (m+1)) hdroplen hmemd bytes' hrest
            have hlen3 : (x :: xs).length - is.length = ((x :: xs).drop (m+1)).length := by
              rw [hislen, List.length_drop]
            rw [hlen3, lookupAll_append p is _ _ _ e4 hIH, List.take_append_drop]
          · -- the last, short chunk
            push_neg at hcase
            have hdropnil : (x :: xs).drop (m+1) = [] := List.drop_eq_nil_of_le (by omega)
            rw [hdropnil, chunksOf_nil] at hrest
            simp only [packChunks] at hrest
            have hbytes2 : bytes' = [] := (Option.some.inj hrest).symm
            subst hbytes2
            rw [List.flatMap_nil, List.append_nil, ← List.map_take, List.take_range]
            have hmin : (x :: xs).length ⊓ (m+1) = (x :: xs).length := by omega
            rw [hmin]
            have htakeall : (x :: xs).take (m+1) = x :: xs := List.take_of_length_le (by omega)
            have hlen4 : (x :: xs).length = is.length := by rw [e2, htakeall]
            rw [hlen4, map_getD_range, e4, htakeall]

/-! ### Claim theorems -/

/-- C1: the code derives the bit width as ceil(log2(palette_size)) with
no 1-bit minimum.  Sizes 2 through 8 match the claimed values, but a
palette of size 1 yields bits_per_colour = 0, not 1 as the claim states
(the run then panics computing 8 / 0 at main.rs line 113). -/
theorem bits_per_colour_code_eval :
    bits_per_colour 1 = 0 ∧ ¬ (bits_per_colour 1 = 1) ∧
    bits_per_colour 2 = 1 ∧ bits_per_colour 3 = 2 ∧ bits_per_colour 4 = 2 ∧
    bits_per_colour 5 = 3 ∧ bits_per_colour 6 = 3 ∧ bits_per_colour 7 = 3 ∧
    bits_per_colour 8 = 3 := by
  refine ⟨bpc_one, by simp [bpc_one], bpc_two, bpc_three,
    clog2_eq 4 1 (by norm_num) (by norm_num),
    clog2_eq 5 2 (by norm_num) (by norm_num),
    clog2_eq 6 2 (by norm_num) (by norm_num),
    clog2_eq 7 2 (by norm_num) (by norm_num),
    clog2_eq 8 2 (by norm_num) (by norm_num)⟩

/-- C2: for every image whose pixels all resolve in the palette, in the
run context (bit width derived from a palette of size 2 to 256 and
pixels_per_byte = 8 / bits), unpacking the packed byte sequence —
extracting successive bits-wide fields from each byte least significant
first, taking pixel-count fields in total and mapping each back through
the same palette — reproduces the original pixel sequence exactly,
including the final short group. -/
theorem encoder_roundtrip (p : Palette) (img : Image) (bits ppb : Nat) (bytes : List Nat)
    (hbits : bits = bits_per_colour p.len)
    (hppb : ppb = pixels_per_byte bits)
    (hlo : 2 ≤ p.len) (hhi : p.len ≤ 256)
    (hmem : ∀ px ∈ img.pixels, px ∈ p.colours)
    (hpack : Image.packed img p ppb bits = some bytes) :
    unpack p bits ppb img.pixels.length bytes = some img.pixels := by
  have hb1 : 0 < bits := by
    rw [hbits, bits_per_colour]
    exact Nat.clog_pos (by norm_num) hlo
  have hcap : p.colours.length ≤ 2 ^ bits := by
    rw [hbits, bits_per_colour]
    exact Nat.le_pow_clog (by norm_num) p.len
  have hb8 : bits ≤ 8 := by
    rw [hbits, bits_per_colour]
    exact (Nat.le_pow_iff_clog_le (by norm_num)).mp (by norm_num at hhi ⊢; omega)
  have hppb1 : 0 < ppb := by
    rw [hppb, pixels_per_byte]
    exact Nat.div_pos hb8 hb1
  have hfit : bits * ppb ≤ 8 := by
    rw [hppb, pixels_per_byte]
    exact Nat.mul_div_le 8 bits
  obtain ⟨m, hm⟩ : ∃ m, ppb = m + 1 := ⟨ppb - 1, by omega⟩
  subst hm
  rw [unpack]
  exact roundtrip_core p bits m hfit hcap img.pixels.length img.pixels le_rfl hmem bytes hpack

/-- Witness for C2: palette [px0, px1], pixels [px0, px1, px1] pack to
the single byte 6 = 0 + 2 + 4, and unpacking 3 fields restores them. -/
theorem encoder_roundtrip_witness :
    unpack ⟨[px0, px1]⟩ 1 8 3 [6] = some [px0, px1, px1] := by
  have hpack : Image.packed ⟨"a", [px0, px1, px1]⟩ ⟨[px0, px1]⟩ 8 1 = some [6] := by
    simp [Image.packed, chunksOf, packChunks, packByte, packByteAux, Palette.index,
      posOf, px0, px1]
  exact encoder_roundtrip ⟨[px0, px1]⟩ ⟨"a", [px0, px1, px1]⟩ 1 8 [6]
    bpc_two.symm rfl (by decide) (by decide) (by decide) hpack

/-- C3: in the run context, the encoder partitions the pixels into
consecutive groups of pixels_per_byte (the last possibly shorter, all
non-empty) and emits one byte per group equal to the sum of the group
members' palette indices shifted left by position times bit width, the
first pixel in the least significant bits; every emitted group value is
below 2 to the group's own bit count, so unused high positions of a
short final group are zero. -/
theorem encoder_packing (p : Palette) (img : Image) (bits ppb : Nat)
    (hbits : bits = bits_per_colour p.len)
    (hppb : ppb = pixels_per_byte bits)
    (hlo : 2 ≤ p.len) (hhi : p.len ≤ 256)
    (hmem : ∀ px ∈ img.pixels, px ∈ p.colours) :
    (chunksOf ppb img.pixels).flatten = img.pixels ∧
    (∀ c ∈ chunksOf ppb img.pixels, 0 < c.length ∧ c.length ≤ ppb) ∧
    Image.packed img p ppb bits =
      some ((chunksOf ppb img.pixels).map
        (fun c => ∑ j in Finset.range c.length,
          (c.map (fun px => (p.index px).getD 0)).getD j 0 * 2 ^ (j * bits))) ∧
    ∀ c ∈ chunksOf ppb img.pixels,
      (∑ j in Finset.range c.length,
        (c.map (fun px => (p.index px).getD 0)).getD j 0 * 2 ^ (j * bits)) <
        2 ^ (bits * c.length) := by
  have hb1 : 0 < bits := by
    rw [hbits, bits_per_colour]
    exact Nat.clog_pos (by norm_num) hlo
  have hcap : p.colours.length ≤ 2 ^ bits := by
    rw [hbits, bits_per_colour]
    exact Nat.le_pow_clog (by norm_num) p.len
  have hb8 : bits ≤ 8 := by
    rw [hbits, bits_per_colour]
    exact (Nat.le_pow_iff_clog_le (by norm_num)).mp (by norm_num at hhi ⊢; omega)
  have hppb1 : 0 < ppb := by
    rw [hppb, pixels_per_byte]
    exact Nat.div_pos hb8 hb1
  have hfit : bits * ppb ≤ 8 := by
    rw [hppb, pixels_per_byte]
    exact Nat.mul_div_le 8 bits
  have hflat : (chunksOf ppb img.pixels).flatten = img.pixels :=
    chunksOf_flatten ppb hppb1 _
  have hlen : ∀ c ∈ chunksOf ppb img.pixels, 0 < c.length ∧ c.length ≤ ppb :=
    chunksOf_mem_length ppb hppb1 _
  have hmemc : ∀ c ∈ chunksOf ppb img.pixels,
      (∀ px ∈ c, px ∈ p.colours) ∧ bits * c.length ≤ 8 := by
    intro c hc
    refine ⟨?_, le_trans (Nat.mul_le_mul_left _ (hlen c hc).2) hfit⟩
    intro px hpx
    apply hmem
    rw [← hflat]
    exact List.mem_flatten.mpr ⟨c, hc, hpx⟩
  have hidxlt : ∀ c ∈ chunksOf ppb img.pixels,
      ∀ i ∈ c.map (fun px => (p.index px).getD 0), i < 2 ^ bits := by
    intro c hc i hi
    obtain ⟨px, hpx, hival⟩ := List.mem_map.mp hi
    obtain ⟨k, hk1, hk2, _⟩ := posOf_spec p.colours px ((hmemc c hc).1 px hpx)
    have : (p.index px).getD 0 = k := by simp [Palette.index, hk1]
    rw [← hival, this]
    exact lt_of_lt_of_le hk2 hcap
  refine ⟨hflat, hlen, ?_, ?_⟩
  · rw [Image.packed, packChunks_eval p bits hcap _ hmemc]
    congr 1
    apply List.map_congr_left
    intro c _
    rw [chunkVal_eq_sum, List.length_map]
  · intro c hc
    have hb := chunkVal_eq_sum bits (c.map (fun px => (p.index px).getD 0))
    rw [List.length_map] at hb
    rw [← hb]
    have hlt := chunkVal_lt bits (c.map (fun px => (p.index px).getD 0)) (hidxlt c hc)
    rw [List.length_map] at hlt
    exact hlt

/-- Witness for C3: a one-pixel image over a two-colour palette packs
into exactly the byte given by the sum formula. -/
theorem encoder_packing_witness :
    Image.packed ⟨"a", [px1]⟩ ⟨[px0, px1]⟩ 8 1 =
      some ((chunksOf 8 [px1]).map
        (fun c => ∑ j in Finset.range c.length,
          (c.map (fun px => (Palette.mk [px0, px1]).index px |>.getD 0)).getD j 0 *
            2 ^ (j * 1))) :=
  (encoder_packing ⟨[px0, px1]⟩ ⟨"a", [px1]⟩ 1 8
    bpc_two.symm rfl (by decide) (by decide) (by decide)).2.2.1

/-- C4: the DEFB row rendering uses chunks_exact(5) (main.rs line 198),
which silently drops a final partial row: an image whose packed output
is the single byte 1 renders an empty byte list, so that byte does not
appear in the rendered block at all, contradicting the claim that every
packed byte appears exactly once. -/
theorem rendered_drops_partial_row :
    Image.packed ⟨"a", [px1]⟩ ⟨[px0, px1]⟩ 8 1 = some [1] ∧
    Image.renderedBytes ⟨"a", [px1]⟩ ⟨[px0, px1]⟩ 8 1 = some [] := by
  constructor
  · simp [Image.packed, chunksOf, packChunks, packByte, packByteAux, Palette.index,
      posOf, px0, px1]
  · simp [Image.renderedBytes, Image.packed, chunksOf, chunksExact, packChunks,
      packByte, packByteAux, Palette.index, posOf, px0, px1]

/-- C5: for any non-empty image collection, the palette size equals the
number of distinct colours (exact 4-channel equality) occurring in the
union of all pixels of all the images. -/
theorem palette_size_distinct (images : List Image) (h : images ≠ []) :
    (Palette.new_from_images images).len = (images.flatMap Image.pixels).toFinset.card := by
  simp only [Palette.new_from_images, Palette.len]
  exact (List.card_toFinset _).symm

/-- Witness for C5: two images sharing one colour give a palette of the
combined distinct-colour count. -/
theorem palette_size_distinct_witness :
    (Palette.new_from_images [⟨"a", [px0, px1]⟩, ⟨"b", [px1, px2]⟩]).len =
      ([Image.mk "a" [px0, px1], Image.mk "b" [px1, px2]].flatMap Image.pixels).toFinset.card :=
  palette_size_distinct _ (by simp)

/-- C6: for every bit width derived in a run that reaches the division
(palette size at least 2), pixels_per_byte is exactly the floor of 8
divided by the bit width: the unique q with q * bits ≤ 8 < (q+1) * bits. -/
theorem pixels_per_byte_floor (n : Nat) (h : 2 ≤ n) :
    0 < bits_per_colour n ∧
    pixels_per_byte (bits_per_colour n) * bits_per_colour n ≤ 8 ∧
    8 < (pixels_per_byte (bits_per_colour n) + 1) * bits_per_colour n := by
  have hb : 0 < bits_per_colour n := Nat.clog_pos (by norm_num) h
  refine ⟨hb, ?_, ?_⟩
  · rw [pixels_per_byte]
    exact Nat.div_mul_le_self 8 _
  · rw [pixels_per_byte]
    have h1 : bits_per_colour n * (8 / bits_per_colour n) + 8 % bits_per_colour n = 8 :=
      Nat.div_add_mod 8 _
    have h2 : (8 / bits_per_colour n + 1) * bits_per_colour n =
        bits_per_colour n * (8 / bits_per_colour n) + bits_per_colour n := by ring
    have h3 : 8 % bits_per_colour n < bits_per_colour n := Nat.mod_lt _ hb
    omega

/-- Witness for C6 at palette size 2. -/
theorem pixels_per_byte_floor_witness :
    0 < bits_per_colour 2 ∧
    pixels_per_byte (bits_per_colour 2) * bits_per_colour 2 ≤ 8 ∧
    8 < (pixels_per_byte (bits_per_colour 2) + 1) * bits_per_colour 2 :=
  pixels_per_byte_floor 2 (by norm_num)

/-- C7: if any pixel of the image does not resolve in the palette used
to encode it (with a positive group size, as in any run that reaches
packing), the whole pack aborts with no byte sequence at all — no
default index is ever silently substituted. -/
theorem pack_missing_colour (img : Image) (p : Palette) (ppb bits : Nat)
    (hppb : 0 < ppb) (px : Pixel) (hpx : px ∈ img.pixels)
    (hmiss : p.index px = none) :
    Image.packed img p ppb bits = none := by
  have hflat : (chunksOf ppb img.pixels).flatten = img.pixels :=
    chunksOf_flatten ppb hppb _
  have hmem : px ∈ (chunksOf ppb img.pixels).flatten := by
    rw [hflat]; exact hpx
  obtain ⟨c, hc, hpxc⟩ := List.mem_flatten.mp hmem
  have hbyte : packByte p bits c = none := by
    rw [packByte]
    exact packByteAux_none p bits c.reverse 0 px (List.mem_reverse.mpr hpxc) hmiss
  rw [Image.packed]
  exact packChunks_none p bits _ c hc hbyte

/-- Witness for C7: a pixel absent from a one-colour palette makes the
pack fail. -/
theorem pack_missing_colour_witness :
    Image.packed ⟨"w", [px1]⟩ ⟨[px0]⟩ 8 1 = none :=
  pack_missing_colour ⟨"w", [px1]⟩ ⟨[px0]⟩ 8 1 (by norm_num) px1 (by decide) (by decide)

/-- C8: zero input images fail with the empty-input error and no output
value is produced; in the source the check (main.rs line 88) precedes
the creation of the output file (line 100). -/
theorem empty_input_error : mainRun [] = Except.error "No Images to process." := rfl

/-- C9: for every palette built from images and every in-range position
k, the colour rendered at line k of the palette block is exactly the
colour whose index lookup returns k — rendering order and index lookup
are two views of the one stored order. -/
theorem palette_order_consistent (images : List Image) (k : Nat) (c : Pixel)
    (h : (Palette.new_from_images images).colours.get? k = some c) :
    (Palette.new_from_images images).index c = some k ∧
    (paletteRendered (Palette.new_from_images images)).get? k = some (c.r, c.g, c.b, c.a) := by
  constructor
  · have hnd : (Palette.new_from_images images).colours.Nodup := by
      simp only [Palette.new_from_images]
      exact List.nodup_dedup _
    rw [Palette.index]
    exact posOf_of_nodup _ hnd k c h
  · rw [paletteRendered, List.get?_map, h]
    rfl

/-- Witness for C9: in the palette of one two-colour image, position 1
renders px1 and px1 looks up to index 1. -/
theorem palette_order_consistent_witness :
    (Palette.new_from_images [⟨"a", [px0, px1]⟩]).index px1 = some 1 ∧
    (paletteRendered (Palette.new_from_images [⟨"a", [px0, px1]⟩])).get? 1 =
      some (px1.r, px1.g, px1.b, px1.a) :=
  palette_order_consistent [⟨"a", [px0, px1]⟩] 1 px1 (by decide)

/-- The label of a rendered image block is the underscore-prefixed
asset name. -/
theorem toBlock_fst (img : Image) (p : Palette) (ppb bits : Nat) (blk : String × List Nat)
    (h : Image.toBlock img p ppb bits = some blk) : blk.1 = "_" ++ img.name := by
  rw [Image.toBlock] at h
  cases hpk : Image.packed img p ppb bits with
  | none => rw [hpk] at h; cases h
  | some packed =>
    rw [hpk] at h
    simp only [Option.map_some'] at h
    have hblk : blk = ("_" ++ img.name, (chunksExact 5 packed).flatten) :=
      (Option.some.inj h).symm
    rw [hblk]

/-- The labels of the rendered blocks are the image labels, in order. -/
theorem buildBlocks_labels (p : Palette) (ppb bits : Nat) :
    ∀ (images : List Image) (blocks : List (String × List Nat)),
      buildBlocks p ppb bits images = some blocks →
      blocks.map Prod.fst = images.map (fun img => "_" ++ img.name) := by
  intro images
  induction images with
  | nil =>
    intro blocks h
    simp only [buildBlocks] at h
    have hb : blocks = [] := (Option.some.inj h).symm
    subst hb
    simp
  | cons img rest ih =>
    intro blocks h
    simp only [buildBlocks] at h
    cases hblk : Image.toBlock img p ppb bits with
    | none => rw [hblk] at h; cases h
    | some blk =>
      rw [hblk] at h
      cases hrest : buildBlocks p ppb bits rest with
      | none => rw [hrest] at h; cases h
      | some blks =>
        rw [hrest] at h
        simp only [Option.map_some'] at h
        have hb : blocks = blk :: blks := (Option.some.inj h).symm
        subst hb
        simp only [List.map_cons]
        rw [toBlock_fst img p ppb bits blk hblk, ih blks hrest]

/-- C10: every successful run emits an address table holding exactly
one entry per input image — joining the _ADR-prefixed label to the
image's own label, in input order — followed by the terminating end
marker, and the derived ASSET_MAX entry-count constant equals the
number of images exactly. -/
theorem address_table_counts (images : List Image) (out : OutputFile)
    (h : mainRun images = Except.ok out) :
    out.table =
      (images.map (fun img =>
        TableLine.entry ("_ADR" ++ ("_" ++ img.name)) ("_" ++ img.name)))
        ++ [TableLine.endMarker] ∧
    out.table.length = images.length + 1 ∧
    out.assetMax = images.length := by
  simp only [mainRun] at h
  split at h
  · exact absurd h (by simp)
  · split at h
    · exact absurd h (by simp)
    · split at h
      · exact absurd h (by simp)
      · rename_i blocks heq
        have hout : out = _ := (Except.ok.inj h).symm
        subst hout
        have hlabels : blocks.map Prod.fst = images.map (fun img => "_" ++ img.name) :=
          buildBlocks_labels _ _ _ images blocks heq
        refine ⟨?_, ?_, ?_⟩
        · show addressTable (blocks.map Prod.fst) = _
          rw [hlabels, addressTable, List.map_map]
          rfl
        · show (addressTable (blocks.map Prod.fst)).length = images.length + 1
          rw [addressTable, List.length_append, List.length_map, hlabels, List.length_map]
          rfl
        · show assetMaxConst (blocks.map Prod.fst) = images.length
          rw [assetMaxConst]
          have hl : (blocks.map Prod.fst).length = images.length := by
            rw [hlabels, List.length_map]
          rw [hl]
          omega

/-- Concrete evaluation of a successful run on one two-colour image. -/
theorem mainRun_two_colour_eval :
    mainRun [⟨"a", [px0, px1]⟩] =
      Except.ok
        (OutputFile.mk [(0, 0, 0, 0), (10, 20, 30, 255)] 1 8 [("_a", [])]
          [TableLine.entry "_ADR_a" "_a", TableLine.endMarker] 1) := by
  simp only [px0, px1]
  have hp :
      Palette.new_from_images [⟨"a", [⟨0, 0, 0, 0⟩, ⟨10, 20, 30, 255⟩]⟩] =
        Palette.mk [⟨0, 0, 0, 0⟩, ⟨10, 20, 30, 255⟩] := by
    decide
  have hbits :
      bits_per_colour (Palette.mk [(⟨0, 0, 0, 0⟩ : Pixel), ⟨10, 20, 30, 255⟩]).len = 1 :=
    bpc_two
  have hblocks :
      buildBlocks (Palette.mk [⟨0, 0, 0, 0⟩, ⟨10, 20, 30, 255⟩]) 8 1
          [⟨"a", [⟨0, 0, 0, 0⟩, ⟨10, 20, 30, 255⟩]⟩] = some [("_a", [])] := by
    simp [buildBlocks, Image.toBlock, Image.packed, packChunks, chunksOf, packByte,
      packByteAux, Palette.index, posOf, chunksExact]
  simp only [mainRun, hp, hbits, pixels_per_byte]
  norm_num [hblocks, addressTable, assetMaxConst, paletteRendered]
  rfl

/-- Witness for C10 on the run of one two-colour image: one table
entry, the end marker, and ASSET_MAX = 1. -/
theorem address_table_counts_witness :
    ([TableLine.entry "_ADR_a" "_a", TableLine.endMarker] =
      ([(⟨"a", [px0, px1]⟩ : Image)].map (fun img =>
        TableLine.entry ("_ADR" ++ ("_" ++ img.name)) ("_" ++ img.name)))
        ++ [TableLine.endMarker]) ∧
    ([TableLine.entry "_ADR_a" "_a", TableLine.endMarker] : List TableLine).length =
      ([(⟨"a", [px0, px1]⟩ : Image)] : List Image).length + 1 ∧
    (1 : Nat) = ([(⟨"a", [px0, px1]⟩ : Image)] : List Image).length :=
  address_table_counts [⟨"a", [px0, px1]⟩]
    (OutputFile.mk [(0, 0, 0, 0), (10, 20, 30, 255)] 1 8 [("_a", [])]
      [TableLine.entry "_ADR_a" "_a", TableLine.endMarker] 1)
    mainRun_two_colour_eval
